import Mathlib

/-!
Verification of the inverted-index repository
(task_Polumestny_Andrey_inverted_index_lib.py,
task_Polumestny_Andrey_inverted_index_cli.py).

The Python code is shallowly embedded: strings are lists of characters,
Python dicts (which preserve insertion order and have unique keys) are
association lists, byte streams are lists of naturals below 256, and
code that raises exceptions is modelled with Except.  All definitions
are executable so concrete runs of the embedded code evaluate by decide.
-/

/-- A Python string (used for terms and query words): a list of characters. -/
abbrev Term := List Char

/-- The inverted index data structure: the Python dict mapping a term to its
posting list, modelled as an insertion-ordered association list with unique
keys (Python dicts preserve insertion order and cannot repeat a key). -/
abbrev PyIndex := List (Term × List Nat)

/-- Python dict lookup, d.get(k): the value of the first (only) binding of k. -/
def dictGet (m : PyIndex) (k : Term) : Option (List Nat) :=
  match m with
  | [] => none
  | (k', v) :: rest => if k' = k then some v else dictGet rest k

/-- Python dict assignment, d[k] = v: replaces the value of an existing key in
place (keeping its position) and appends a fresh key at the end.  This is the
CPython insertion-order contract. -/
def dictSet (m : PyIndex) (k : Term) (v : List Nat) : PyIndex :=
  match m with
  | [] => [(k, v)]
  | (k', v') :: rest =>
      if k' = k then (k', v) :: rest else (k', v') :: dictSet rest k v

/-- A word character for the regex \w on ASCII text: letter, digit or
underscore.  (Python re is Unicode-aware; the model is exact on ASCII, which
covers every input appearing in the theorems of this file.) -/
def isWordChar (c : Char) : Bool :=
  c.isAlphanum || c = '_'

/-- Embedding of re.split(r"\W+", s), the tokenizer used by
build_inverted_index.  The accumulator holds the current fragment reversed;
the flag records whether we are inside a separator run.  Crucially, re.split
keeps the empty fragments produced at the boundaries: splitting "a!" gives
["a", ""], splitting "!a" gives ["", "a"] and splitting "" gives [""]. -/
def splitWAux : List Char → List Char → Bool → List Term
  | [], cur, _ => [cur.reverse]
  | c :: rest, cur, inSep =>
      if isWordChar c then splitWAux rest (c :: cur) false
      else if inSep then splitWAux rest cur true
      else cur.reverse :: splitWAux rest [] true

/-- re.split(r"\W+", s) on a whole string. -/
def splitW (s : List Char) : List Term :=
  splitWAux s [] false

/-- One step of the builder loop body: for a word of document key,
if word not in inv_index: inv_index[word] = [key]
elif key not in inv_index[word]: inv_index[word].append(key). -/
def addWord (m : PyIndex) (key : Nat) (word : Term) : PyIndex :=
  match dictGet m word with
  | none => dictSet m word [key]
  | some l => if key ∈ l then m else dictSet m word (l ++ [key])

/-- Processing one document of build_inverted_index: fold the word loop over
the fragments of re.split(r"\W+", value). -/
def addDoc (m : PyIndex) (doc : Nat × List Char) : PyIndex :=
  (splitW doc.2).foldl (fun m w => addWord m doc.1 w) m

/-- Embedding of build_inverted_index: fold the document loop over the
documents dict (an insertion-ordered association list of id and text). -/
def build_inverted_index (documents : List (Nat × List Char)) : PyIndex :=
  documents.foldl addDoc []

/-- CPython hash of a non-negative int: reduction modulo the Mersenne prime
2^61 - 1 (identity on every document id below that bound). -/
def pyHash (n : Nat) : Nat :=
  n % 2305843009213693951

/-- A CPython set of small ints: an open-addressing hash table (a list of
slots in table order) plus an overflow list.  The overflow list is a
totalization device only: CPython probing always terminates, and the fuel
given below is large enough that the overflow is never reached for any input
evaluated in this file; it keeps the model a total function.  Iteration
(list(s)) reads the table slots in ascending order, which is exactly the
CPython iteration order. -/
structure PySet where
  table : List (Option Nat)
  over : List Nat
deriving DecidableEq, Repr

/-- The elements of a modelled set, in iteration order: filled table slots in
slot order (as CPython iterates), then the overflow. -/
def psElems (s : PySet) : List Nat :=
  s.table.filterMap id ++ s.over

/-- The empty CPython set: 8 slots, as PySet_MINSIZE. -/
def psEmpty : PySet :=
  ⟨[none, none, none, none, none, none, none, none], []⟩

/-- The CPython probe sequence for open addressing: starting from
i = hash & mask with perturb = hash, repeatedly shift perturb right by 5 and
step to (5 i + 1 + perturb) & mask, returning the first empty slot.  The
element being inserted is known to be absent, so slot values are never
compared (in CPython the probe for an absent key also ends at the first
empty slot). -/
def psFindEmpty (t : List (Option Nat)) : Nat → Nat → Nat → Option Nat
  | 0, _, _ => none
  | fuel + 1, i, perturb =>
      match t.getD (i % t.length) (some 0) with
      | none => some (i % t.length)
      | some _ =>
          let p := perturb / 32
          psFindEmpty t fuel ((i * 5 + 1 + p) % t.length) p

/-- CPython set insertion.  A present element leaves the set unchanged; an
absent element is stored at the first empty slot of its probe sequence (the
contains test is modelled semantically, which agrees with CPython probing by
the standard open-addressing invariant). -/
def psInsert (s : PySet) (x : Nat) : PySet :=
  if x ∈ psElems s then s
  else
    match psFindEmpty s.table (s.table.length + 64) (pyHash x % s.table.length) (pyHash x) with
    | some i => ⟨s.table.set i (some x), s.over⟩
    | none => ⟨s.table, s.over ++ [x]⟩

/-- Embedding of list(set(a).intersection(b)) for b a list: CPython builds
the set of a (inserting in list order), then iterates b, adding to a fresh
result set each element of b found in set(a), and finally lists the result
set in table order. -/
def pyIntersectList (a b : List Nat) : List Nat :=
  let sa := a.foldl psInsert psEmpty
  let r := b.foldl (fun acc x => if x ∈ psElems sa then psInsert acc x else acc) psEmpty
  psElems r

/-- The loop of InvertedIndex.query over the query words, carrying
relevant_documents.  For each word: a missing key or an empty posting list
returns [] at once; the first accumulated list is copied as is; later lists
are intersected through a Python set.  (The int(...) conversion in the source
is the identity here because posting lists already hold integers.) -/
def queryLoop (idx : PyIndex) : List Term → List Nat → List Nat
  | [], rel => rel
  | w :: ws, rel =>
      match dictGet idx w with
      | none => []
      | some documents =>
          if documents = [] then []
          else
            if rel = [] then queryLoop idx ws documents
            else queryLoop idx ws (pyIntersectList rel documents)

/-- Embedding of InvertedIndex.query: run the word loop starting from the
empty relevant_documents list. -/
def query (idx : PyIndex) (words : List Term) : List Nat :=
  queryLoop idx words []

/-- The decimal digit character of n < 10. -/
def decDigit (n : Nat) : Char :=
  Char.ofNat (48 + n)

/-- Decimal printing of a natural, fuelled so that it reduces in the kernel
(the fuel n + 1 always suffices: the recursion divides by 10). -/
def natStrAux : Nat → Nat → List Char
  | 0, _ => []
  | fuel + 1, n =>
      if n < 10 then [decDigit n]
      else natStrAux fuel (n / 10) ++ [decDigit (n % 10)]

/-- Decimal printing of a natural, as Python str/repr of a non-negative int. -/
def natStr (n : Nat) : List Char :=
  natStrAux (n + 1) n

/-- The lowercase hex digit character of n < 16, as CPython json emits. -/
def hexDig (n : Nat) : Char :=
  Char.ofNat (if n < 10 then 48 + n else 87 + n)

/-- The four lowercase hex digits of n < 65536, for a json \uXXXX escape. -/
def hex4 (n : Nat) : List Char :=
  [hexDig (n / 4096 % 16), hexDig (n / 256 % 16), hexDig (n / 16 % 16), hexDig (n % 16)]

/-- The json.dumps escaping of one character with the default
ensure_ascii=True: the two-character shortcuts for quote, backslash and the
common control characters; printable ASCII kept as is; everything else as
\uXXXX, with a surrogate pair for characters beyond the basic plane. -/
def escChar (c : Char) : List Char :=
  if c = '"' then ['\\', '"']
  else if c = '\\' then ['\\', '\\']
  else if c = '\n' then ['\\', 'n']
  else if c = '\r' then ['\\', 'r']
  else if c = '\t' then ['\\', 't']
  else if c = '\x08' then ['\\', 'b']
  else if c = '\x0c' then ['\\', 'f']
  else if 32 ≤ c.toNat && c.toNat ≤ 126 then [c]
  else if c.toNat < 65536 then '\\' :: 'u' :: hex4 c.toNat
  else
    let v := c.toNat - 65536
    ('\\' :: 'u' :: hex4 (55296 + v / 1024)) ++ ('\\' :: 'u' :: hex4 (56320 + v % 1024))

/-- The json.dumps escaping of a string body (without the quotes). -/
def escString (s : List Char) : List Char :=
  match s with
  | [] => []
  | c :: rest => escChar c ++ escString rest

/-- A json string literal: quote, escaped body, quote. -/
def encString (s : List Char) : List Char :=
  '"' :: escString s ++ ['"']

/-- The tail of a json array of ints after its first element: json.dumps
separates elements with a comma and a space and closes with a bracket. -/
def encNumsTail (ns : List Nat) : List Char :=
  match ns with
  | [] => [']']
  | n :: rest => ',' :: ' ' :: natStr n ++ encNumsTail rest

/-- A json array of ints, as json.dumps renders a posting list. -/
def encNums (ns : List Nat) : List Char :=
  match ns with
  | [] => ['[', ']']
  | n :: rest => '[' :: natStr n ++ encNumsTail rest

/-- One json object entry: encoded key, colon, space, value. -/
def encEntry (encVal : α → List Char) (p : Term × α) : List Char :=
  encString p.1 ++ ':' :: ' ' :: encVal p.2

/-- The tail of a json object after its first entry. -/
def encEntriesTail (encVal : α → List Char) (m : List (Term × α)) : List Char :=
  match m with
  | [] => ['}']
  | p :: rest => ',' :: ' ' :: encEntry encVal p ++ encEntriesTail encVal rest

/-- A whole json object with the default json.dump separators. -/
def encObj (encVal : α → List Char) (m : List (Term × α)) : List Char :=
  match m with
  | [] => ['{', '}']
  | p :: rest => '{' :: encEntry encVal p ++ encEntriesTail encVal rest

/-- Embedding of json.dump(self.index, f) in InvertedIndex.dump of the
library module: the text written to the file (json.dump with ensure_ascii
emits pure ASCII, so the file holds exactly these characters). -/
def encodeIndex (idx : PyIndex) : List Char :=
  encObj encNums idx

/-- The metadata header built by struct_dump in the CLI module:
json.dumps(pairs) where pairs maps each term to the length of its posting
list, in index order. -/
def encodeCounts (idx : PyIndex) : List Char :=
  encObj (fun l => natStr (List.length l)) idx

/-- The numeric value of a hex digit character, for json \uXXXX decoding. -/
def hexVal (c : Char) : Option Nat :=
  if 48 ≤ c.toNat && c.toNat ≤ 57 then some (c.toNat - 48)
  else if 97 ≤ c.toNat && c.toNat ≤ 102 then some (c.toNat - 87)
  else if 65 ≤ c.toNat && c.toNat ≤ 70 then some (c.toNat - 55)
  else none

/-- The value of four hex digit characters. -/
def hex4Val (a b c d : Char) : Option Nat := do
  let va ← hexVal a
  let vb ← hexVal b
  let vc ← hexVal c
  let vd ← hexVal d
  some (va * 4096 + vb * 256 + vc * 16 + vd)

/-- The json two-character escapes accepted by json.load. -/
def unescChar (e : Char) : Option Char :=
  if e = '"' then some '"'
  else if e = '\\' then some '\\'
  else if e = '/' then some '/'
  else if e = 'n' then some '\n'
  else if e = 'r' then some '\r'
  else if e = 't' then some '\t'
  else if e = 'b' then some '\x08'
  else if e = 'f' then some '\x0c'
  else none

/-- json.load string scanning, after the opening quote: read characters up
to the closing quote, resolving escapes; a \uXXXX high surrogate must be
followed by a low surrogate and the pair is recombined (json.load would
keep a lone surrogate as a lone surrogate character, which a Lean Char
cannot hold; that corner is modelled as a failure and is never produced by
the encoder).  Raw control characters are rejected as in strict json.load.
The fuel argument only makes the recursion structural; one unit is spent
per decoded character, so the input length always suffices. -/
def unescF : Nat → List Char → Option (List Char × List Char)
  | _, [] => none
  | 0, _ :: _ => none
  | fuel + 1, c :: rest =>
      if c = '"' then some ([], rest)
      else if c = '\\' then
        match rest with
        | 'u' :: a :: b :: d :: e :: rest2 =>
            (match hex4Val a b d e with
            | none => none
            | some n =>
                if 55296 ≤ n && n ≤ 56319 then
                  match rest2 with
                  | '\\' :: 'u' :: f :: g :: h2 :: h3 :: rest3 =>
                      (match hex4Val f g h2 h3 with
                      | some m =>
                          if 56320 ≤ m && m ≤ 57343 then
                            match unescF fuel rest3 with
                            | some (s, r) =>
                                some (Char.ofNat
                                  (65536 + (n - 55296) * 1024 + (m - 56320)) :: s, r)
                            | none => none
                          else none
                      | none => none)
                  | _ => none
                else if 56320 ≤ n && n ≤ 57343 then none
                else
                  match unescF fuel rest2 with
                  | some (s, r) => some (Char.ofNat n :: s, r)
                  | none => none)
        | e :: rest2 =>
            (match unescChar e, unescF fuel rest2 with
            | some c2, some (s, r) => some (c2 :: s, r)
            | _, _ => none)
        | [] => none
      else if 32 ≤ c.toNat then
        match unescF fuel rest with
        | some (s, r) => some (c :: s, r)
        | none => none
      else none

/-- The string scanner with its fuel chosen from the input length. -/
def unesc (cs : List Char) : Option (List Char × List Char) :=
  unescF (cs.length + 1) cs

/-- A decimal digit test for the number scanner. -/
def isDigitCh (c : Char) : Bool :=
  48 ≤ c.toNat && c.toNat ≤ 57

/-- json.load number scanning, restricted to the non-negative integers the
index encoder emits: the maximal leading digit run, read as a decimal value
(a posting list holds positive document ids, so signs, fractions and
exponents never occur in the encoded text). -/
def parseNum (cs : List Char) : Option (Nat × List Char) :=
  let ds := cs.takeWhile isDigitCh
  if ds = [] then none
  else some (ds.foldl (fun a c => a * 10 + (c.toNat - 48)) 0, cs.dropWhile isDigitCh)

/-- The element loop of a json array of ints after its first element,
fuelled by the caller (one unit per element, so the length of the remaining
input always suffices). -/
def parseNumsTail : Nat → List Char → Option (List Nat × List Char)
  | 0, _ => none
  | _, ']' :: rest => some ([], rest)
  | fuel + 1, ',' :: ' ' :: cs =>
      match parseNum cs with
      | none => none
      | some (n, cs') =>
          match parseNumsTail fuel cs' with
          | some (ns, rest) => some (n :: ns, rest)
          | none => none
  | _ + 1, _ => none

/-- A json array of ints, in the exact concrete form the encoder emits
(json.load also skips other whitespace layouts, which the encoder never
produces). -/
def parseNums (cs : List Char) : Option (List Nat × List Char) :=
  match cs with
  | '[' :: cs' =>
      if cs'.head? = some ']' then some ([], cs'.tail)
      else
        match parseNum cs' with
        | none => none
        | some (n, cs'') =>
            match parseNumsTail (cs''.length + 1) cs'' with
            | some (ns, rest) => some (n :: ns, rest)
            | none => none
  | _ => none

/-- One json object entry: a string key, colon, space, then a value read by
parseVal. -/
def parseEntry (parseVal : List Char → Option (α × List Char)) (cs : List Char) :
    Option ((Term × α) × List Char) :=
  match cs with
  | '"' :: cs' =>
      match unesc cs' with
      | none => none
      | some (k, rest) =>
          match rest with
          | ':' :: ' ' :: cs'' =>
              match parseVal cs'' with
              | none => none
              | some (v, rest') => some ((k, v), rest')
          | _ => none
  | _ => none

/-- The entry loop of a json object after its first entry, fuelled by the
caller (one unit per entry). -/
def parseEntriesTail (parseVal : List Char → Option (α × List Char)) :
    Nat → List Char → Option (List (Term × α) × List Char)
  | 0, _ => none
  | _, '}' :: rest => some ([], rest)
  | fuel + 1, ',' :: ' ' :: cs =>
      match parseEntry parseVal cs with
      | none => none
      | some (p, cs') =>
          match parseEntriesTail parseVal fuel cs' with
          | some (m, rest) => some (p :: m, rest)
          | none => none
  | _ + 1, _ => none

/-- A json object with values read by parseVal, in the exact concrete form
the encoder emits. -/
def parseObj (parseVal : List Char → Option (α × List Char)) (cs : List Char) :
    Option (List (Term × α) × List Char) :=
  match cs with
  | '{' :: cs' =>
      if cs'.head? = some '}' then some ([], cs'.tail)
      else
        match parseEntry parseVal cs' with
        | none => none
        | some (p, cs'') =>
            match parseEntriesTail parseVal (cs''.length + 1) cs'' with
            | some (m, rest) => some (p :: m, rest)
            | none => none
  | _ => none

/-- Embedding of json.load for the persisted index text: the whole input
must be one object mapping terms to arrays of ints (json.load rejects
trailing data).  The association list keeps the textual entry order, which
is the order json.load inserts keys into the resulting dict. -/
def decodeIndex (cs : List Char) : Option PyIndex :=
  match parseObj parseNums cs with
  | some (idx, []) => some idx
  | _ => none

/-- json parsing of a metadata header object mapping terms to counts, as the
spec prescribes for the binary format (§4.5). -/
def decodeCounts (cs : List Char) : Option (List (Term × Nat)) :=
  match parseObj parseNum cs with
  | some (m, []) => some m
  | _ => none

/-- The exceptions the embedded code can raise, plus the DecodeError the
spec asks for.  The code itself defines no DecodeError class and never
raises one: structError stands for struct.error (raised by pack/unpack),
jsonError for json.JSONDecodeError. -/
inductive PyError where
  | structError
  | jsonError
  | decodeError
deriving DecidableEq, Repr

/-- The little-endian 4-byte encoding of n < 2^32, as struct.pack('I', n)
on a little-endian machine. -/
def le4 (n : Nat) : List Nat :=
  [n % 256, n / 256 % 256, n / 65536 % 256, n / 16777216 % 256]

/-- The value of the first four bytes of a stream read little-endian, as
struct.unpack('I', data[:4]). -/
def le32 (data : List Nat) : Nat :=
  data.getD 0 0 + data.getD 1 0 * 256 + data.getD 2 0 * 65536 + data.getD 3 0 * 16777216

/-- Embedding of InvertedIndex.load_from_binary in the CLI module, on the
bytes read from the file.  The method unpacks the 4-byte header length
(struct.error when fewer than 4 bytes are available), unpacks the next meta
bytes as a raw byte string (struct.error when fewer than meta bytes remain
after the length field), prints them, and falls off the end: it never parses
the header as json, never touches payload bytes, and returns None.  The
success value none is Python None. -/
def load_from_binary (data : List Nat) : Except PyError (Option PyIndex) :=
  if data.length < 4 then Except.error PyError.structError
  else
    let meta := le32 (data.take 4)
    if data.length - 4 < meta then Except.error PyError.structError
    else Except.ok none

/-- Embedding of InvertedIndex.load_from_json in the CLI module: json.load
the text (raising on malformed json) and wrap the result. -/
def load_from_json (text : List Char) : Except PyError PyIndex :=
  match decodeIndex text with
  | some idx => Except.ok idx
  | none => Except.error PyError.jsonError

/-- Embedding of the CLI classmethod InvertedIndex.load: dispatch on the
strategy string ('json' goes to load_from_json, anything else to
load_from_binary), call the loader, discard its result, and fall off the
end of the function, which in Python returns None.  Exceptions raised by
the loader propagate. -/
def cliLoad (strategy : List Char) (text : List Char) (data : List Nat) :
    Except PyError (Option PyIndex) :=
  if strategy = ['j', 's', 'o', 'n'] then
    match load_from_json text with
    | Except.ok _ => Except.ok none
    | Except.error e => Except.error e
  else
    match load_from_binary data with
    | Except.ok _ => Except.ok none
    | Except.error e => Except.error e

/-- Embedding of struct_dump in the CLI module: the outcome together with
the bytes the method has written into the (already created and truncated)
output file when the outcome is reached.  The method writes pack('I', meta)
and pack(f'{meta}s', header) — the json counts header is pure ASCII, so its
utf8 encoding is its characters — and then evaluates pack('H',) with no
value to pack, which always raises struct.error, abandoning the file with
only the length field and the header in it.  (The documents_id list the
method builds first is dead code: the posting ids are never written.)
pack('I', meta) itself raises if meta does not fit 32 bits, in which case
nothing has been written yet. -/
def struct_dump (idx : PyIndex) : Except PyError Unit × List Nat :=
  let header := encodeCounts idx
  let headerBytes := header.map Char.toNat
  let meta := headerBytes.length
  if meta < 4294967296 then
    (Except.error PyError.structError, le4 meta ++ headerBytes)
  else
    (Except.error PyError.structError, [])

/-- Reading count ids of 4 bytes each, little-endian, from a payload,
for the binary layout of spec §4.5. -/
def chunkIds : Nat → List Nat → List Nat
  | 0, _ => []
  | c + 1, bytes => le32 (bytes.take 4) :: chunkIds c (bytes.drop 4)

/-- Walking the header order, consume count * 4 bytes per term from the
payload section, as the decoding algorithm of spec §4.5 prescribes. -/
def splitPayload : List (Term × Nat) → List Nat → PyIndex
  | [], _ => []
  | (t, c) :: rest, bytes =>
      (t, chunkIds c (bytes.take (4 * c))) :: splitPayload rest (bytes.drop (4 * c))

/-- Modelled from the spec: the binary decoding algorithm of §4.5, which is
missing from the source (load_from_binary stops after unpacking the raw
header bytes).  Read the 4-byte header length H; parse the next H bytes
(ASCII json, as the encoder side of the spec emits) as the ordered
term-to-count header; check the payload is exactly 4 bytes per declared id;
split the payload in header order into fixed-width little-endian ids. -/
def specBinaryDecode (data : List Nat) : Option PyIndex :=
  if data.length < 4 then none
  else
    let h := le32 (data.take 4)
    if data.length < 4 + h then none
    else
      let headerBytes := (data.drop 4).take h
      if headerBytes.all (fun b => b < 128) then
        match decodeCounts (headerBytes.map Char.ofNat) with
        | none => none
        | some counts =>
            let payload := data.drop (4 + h)
            if payload.length = 4 * (counts.map Prod.snd).sum then
              some (splitPayload counts payload)
            else none
      else none

/-- A valid Index in the sense of the spec data model (§3): unique terms,
and every posting list non-empty, strictly ascending and made of positive
document ids. -/
def ValidIndex (idx : PyIndex) : Prop :=
  (idx.map Prod.fst).Nodup ∧
    ∀ p ∈ idx, p.2 ≠ [] ∧ List.Chain' (· < ·) p.2 ∧ ∀ d ∈ p.2, 0 < d

instance : DecidablePred ValidIndex := fun _idx =>
  inferInstanceAs (Decidable (And _ _))

/-- ASCII lowercasing of a term, for the case-insensitive matching the spec
claims for queries. -/
def lowerTerm (t : Term) : Term :=
  t.map Char.toLower

/-- Modelled from the spec: the single-term query result the spec promises
(§4.3, §8) — the ascending-sorted list of ids of the documents whose text
contains the term at least once under case-insensitive token matching. -/
def specSingleQuery (documents : List (Nat × List Char)) (t : Term) : List Nat :=
  List.insertionSort (· ≤ ·)
    (((documents.filter
        (fun p => ((splitW p.2).map lowerTerm).contains (lowerTerm t))).map Prod.fst))

/-- Modelled from the spec: the two-term query result the spec promises
(§4.3, §8) — the ascending-sorted intersection of the two single-term
results. -/
def sortedIntersect (l1 l2 : List Nat) : List Nat :=
  List.insertionSort (· ≤ ·) ((l1.filter (fun d => l2.contains d)).dedup)

/-- A concrete index {"topic": [12, 25]} used to exercise the binary codec. -/
def exTopicIndex : PyIndex :=
  [(['t', 'o', 'p', 'i', 'c'], [12, 25])]

/-- A concrete well-formed binary stream in the layout of spec §4.5:
4-byte little-endian header length 12, the 12 ASCII bytes of the counts
header for {"topic": 2}, then two 4-byte little-endian ids 12 and 25. -/
def exBinaryStream : List Nat :=
  le4 12 ++ (encodeCounts exTopicIndex).map Char.toNat ++ le4 12 ++ le4 25

/-- C1: the claim states that binary decoding reconstructs the encoded
Index from a well-formed stream.  The spec decoding algorithm does
reconstruct {"topic": [12, 25]} from the example stream, but the decoder
in the code, load_from_binary, merely unpacks the header length and the raw
header bytes and returns Python None: it never reconstructs an Index from
any stream.  The spec itself flags this reader as a known defect of the
source (§9), so the code, not the claim, is wrong. -/
theorem c1_binary_decode_returns_none :
    specBinaryDecode exBinaryStream = some exTopicIndex ∧
      load_from_binary exBinaryStream = Except.ok none := by
  constructor
  · decide
  · rfl

/-- C3 counterexample: on the empty stream (length < 4) binary decoding
fails with struct.error, which is not the DecodeError the claim requires —
the code defines no DecodeError class at all. -/
theorem c3_counterexample :
    load_from_binary [] = Except.error PyError.structError ∧
      PyError.structError ≠ PyError.decodeError := by
  constructor
  · rfl
  · decide

/-- C3 amended: for every stream shorter than 4 bytes, and for every stream
whose declared 4-byte header length exceeds the bytes remaining after the
length field, binary decoding fails by raising struct.error from unpack
(an unclassified error; no DecodeError exists in the code). -/
theorem c3_truncated_stream_struct_error (data : List Nat)
    (h : data.length < 4 ∨ data.length < 4 + le32 (data.take 4)) :
    load_from_binary data = Except.error PyError.structError := by
  unfold load_from_binary
  rcases h with h | h
  · simp [h]
  · by_cases h4 : data.length < 4
    · simp [h4]
    · have : data.length - 4 < le32 (data.take 4) := by omega
      simp [h4, this]

/-- C3 witness: the amended theorem applied to the empty stream and to a
stream declaring a 5-byte header with no bytes after the length field. -/
theorem c3_truncated_stream_struct_error_witness :
    load_from_binary [] = Except.error PyError.structError ∧
      load_from_binary [5, 0, 0, 0] = Except.error PyError.structError :=
  ⟨c3_truncated_stream_struct_error [] (Or.inl (by decide)),
   c3_truncated_stream_struct_error [5, 0, 0, 0] (Or.inr (by decide))⟩

/-- C4: the claim states dumping is atomic (a complete well-formed file or
no file).  In the code, struct_dump opens the output file for writing
(creating or truncating it), writes the 4-byte header length and the json
counts header, and then evaluates pack('H',) with no value, which raises
struct.error: every struct dump fails, and on the concrete index
{"topic": [12, 25]} the abandoned file already holds 16 bytes, a partial
file with no payload.  The spec flags this writer as a known defect of the
source (§9), so the code, not the claim, is wrong. -/
theorem c4_struct_dump_always_fails_partial_file :
    (∀ idx : PyIndex, (struct_dump idx).1 = Except.error PyError.structError) ∧
      (struct_dump exTopicIndex).2 ≠ [] := by
  constructor
  · intro idx
    simp only [struct_dump]
    split <;> rfl
  · decide

/-- C10: for both strategies, the CLI classmethod InvertedIndex.load calls
the strategy loader, ignores its result, and falls off the end of the
function: whenever it returns at all (rather than propagating the loader
exception), it returns Python None, never an InvertedIndex. -/
theorem c10_cli_load_returns_none (strategy text : List Char) (data : List Nat)
    (r : Option PyIndex) (h : cliLoad strategy text data = Except.ok r) :
    r = none := by
  unfold cliLoad at h
  split at h
  · cases hj : load_from_json text <;> rw [hj] at h <;> simp_all
  · cases hb : load_from_binary data <;> rw [hb] at h <;> simp_all

/-- C10 witness: loading the valid persisted text "{}" with the json
strategy succeeds and, by the theorem, yields None. -/
theorem c10_cli_load_returns_none_witness :
    cliLoad ['j', 's', 'o', 'n'] ['{', '}'] [] = Except.ok none ∧
      (none : Option PyIndex) = none :=
  ⟨rfl, c10_cli_load_returns_none ['j', 's', 'o', 'n'] ['{', '}'] [] none rfl⟩

/-- The posting list produced by one builder step for a word already mapped
to o (none when the word is new): the Python branch structure of addWord. -/
def postingAdd (key : Nat) : Option (List Nat) → List Nat
  | none => [key]
  | some l => if key ∈ l then l else l ++ [key]

/-- The ids of the documents whose tokenization contains t, in document
order: what the builder actually stores for t. -/
def docsWith (documents : List (Nat × List Char)) (t : Term) : List Nat :=
  (documents.filter (fun p => decide (t ∈ splitW p.2))).map Prod.fst

theorem dictGet_dictSet_self (m : PyIndex) (k : Term) (v : List Nat) :
    dictGet (dictSet m k v) k = some v := by
  induction m with
  | nil => simp [dictGet, dictSet]
  | cons p rest ih =>
      obtain ⟨k', v'⟩ := p
      by_cases h : k' = k
      · simp [dictGet, dictSet, h]
      · simp [dictGet, dictSet, h, ih]

theorem dictGet_dictSet_ne (m : PyIndex) (k t : Term) (v : List Nat) (h : k ≠ t) :
    dictGet (dictSet m k v) t = dictGet m t := by
  induction m with
  | nil => simp [dictGet, dictSet, h]
  | cons p rest ih =>
      obtain ⟨k', v'⟩ := p
      by_cases h' : k' = k
      · subst h'
        simp [dictGet, dictSet, h]
      · simp [dictGet, dictSet, h', ih]

theorem dictGet_addWord_self (m : PyIndex) (key : Nat) (w : Term) :
    dictGet (addWord m key w) w = some (postingAdd key (dictGet m w)) := by
  unfold addWord postingAdd
  cases h : dictGet m w with
  | none => simp [dictGet_dictSet_self]
  | some l =>
      by_cases hk : key ∈ l
      · simp [hk, h]
      · simp [hk, dictGet_dictSet_self]

theorem dictGet_addWord_ne (m : PyIndex) (key : Nat) (w t : Term) (h : w ≠ t) :
    dictGet (addWord m key w) t = dictGet m t := by
  unfold addWord
  cases hw : dictGet m w with
  | none => simp [dictGet_dictSet_ne _ _ _ _ h]
  | some l =>
      by_cases hk : key ∈ l
      · simp [hk]
      · simp [hk, dictGet_dictSet_ne _ _ _ _ h]

theorem key_mem_postingAdd (key : Nat) (o : Option (List Nat)) :
    key ∈ postingAdd key o := by
  cases o with
  | none => simp [postingAdd]
  | some l =>
      by_cases hk : key ∈ l
      · simp [postingAdd, hk]
      · simp [postingAdd, hk]

theorem postingAdd_idem (key : Nat) (o : Option (List Nat)) :
    postingAdd key (some (postingAdd key o)) = postingAdd key o := by
  cases o with
  | none => simp [postingAdd]
  | some l =>
      by_cases hk : key ∈ l
      · simp [postingAdd, hk]
      · simp [postingAdd, hk]

/-- The inner word loop of the builder: what the index maps t to after
folding addWord over a word list. -/
theorem dictGet_addWords (ws : List Term) (m : PyIndex) (key : Nat) (t : Term) :
    dictGet (ws.foldl (fun m w => addWord m key w) m) t =
      if t ∈ ws then some (postingAdd key (dictGet m t)) else dictGet m t := by
  induction ws generalizing m with
  | nil => simp
  | cons w ws ih =>
      rw [List.foldl_cons, ih (addWord m key w)]
      by_cases hw : w = t
      · rw [hw]
        by_cases hmem : t ∈ ws
        · rw [if_pos hmem, if_pos (List.mem_cons_self t ws), dictGet_addWord_self,
            postingAdd_idem]
        · rw [if_neg hmem, if_pos (List.mem_cons_self t ws), dictGet_addWord_self]
      · rw [dictGet_addWord_ne _ _ _ _ hw]
        have hmc : (t ∈ w :: ws) ↔ (t ∈ ws) := by
          constructor
          · intro h
            rcases List.mem_cons.mp h with h1 | h1
            · exact absurd h1.symm hw
            · exact h1
          · exact fun h => List.mem_cons_of_mem _ h
        by_cases hmem : t ∈ ws
        · rw [if_pos hmem, if_pos (hmc.mpr hmem)]
        · rw [if_neg hmem, if_neg (fun hh => hmem (hmc.mp hh))]

theorem dictGet_addDoc (m : PyIndex) (k : Nat) (tx : List Char) (t : Term) :
    dictGet (addDoc m (k, tx)) t =
      if t ∈ splitW tx then some (postingAdd k (dictGet m t)) else dictGet m t :=
  dictGet_addWords (splitW tx) m k t

theorem docsWith_cons (k : Nat) (tx : List Char) (rest : List (Nat × List Char)) (t : Term) :
    docsWith ((k, tx) :: rest) t =
      if t ∈ splitW tx then k :: docsWith rest t else docsWith rest t := by
  by_cases h : t ∈ splitW tx <;> simp [docsWith, List.filter_cons, h]

/-- The document loop of the builder, generalized over the accumulated
index: under key freshness (no upcoming document id already sits in a
posting list of the accumulator) the entry of t grows by exactly the
matching document ids in document order. -/
theorem dictGet_buildAux (documents : List (Nat × List Char)) (m : PyIndex) (t : Term)
    (hnodup : (documents.map Prod.fst).Nodup)
    (hfresh : ∀ p ∈ documents, ∀ w l, dictGet m w = some l → p.1 ∉ l) :
    dictGet (documents.foldl addDoc m) t =
      match dictGet m t with
      | none => if docsWith documents t = [] then none else some (docsWith documents t)
      | some l => some (l ++ docsWith documents t) := by
  induction documents generalizing m with
  | nil =>
      cases h : dictGet m t <;> simp [docsWith, h]
  | cons p rest ih =>
      obtain ⟨k, tx⟩ := p
      rw [List.foldl_cons]
      have hfreshk : ∀ w l, dictGet m w = some l → k ∉ l := fun w l hl =>
        hfresh (k, tx) (List.mem_cons_self _ _) w l hl
      have hnodup' : (rest.map Prod.fst).Nodup := by
        rw [List.map_cons, List.nodup_cons] at hnodup
        exact hnodup.2
      have hknotin : k ∉ rest.map Prod.fst := by
        rw [List.map_cons, List.nodup_cons] at hnodup
        exact hnodup.1
      have hfresh' : ∀ q ∈ rest, ∀ w l, dictGet (addDoc m (k, tx)) w = some l → q.1 ∉ l := by
        intro q hq w l hl
        have hqk : q.1 ≠ k := fun hh => hknotin (hh ▸ List.mem_map_of_mem Prod.fst hq)
        rw [dictGet_addDoc] at hl
        by_cases hw : w ∈ splitW tx
        · rw [if_pos hw] at hl
          cases hmw : dictGet m w with
          | none =>
              rw [hmw] at hl
              simp only [postingAdd, Option.some.injEq] at hl
              subst hl
              simp [hqk]
          | some l0 =>
              rw [hmw] at hl
              have hk0 : k ∉ l0 := hfreshk w l0 hmw
              simp only [postingAdd, hk0, if_neg, Option.some.injEq] at hl
              subst hl
              have hq0 : q.1 ∉ l0 := hfresh q (List.mem_cons_of_mem _ hq) w l0 hmw
              simp [hq0, hqk]
        · rw [if_neg hw] at hl
          exact hfresh q (List.mem_cons_of_mem _ hq) w l hl
      rw [ih (addDoc m (k, tx)) hnodup' hfresh', dictGet_addDoc, docsWith_cons]
      by_cases htx : t ∈ splitW tx
      · rw [if_pos htx, if_pos htx]
        cases hmt : dictGet m t with
        | none => simp [postingAdd]
        | some l =>
            have hkl : k ∉ l := hfreshk t l hmt
            simp [postingAdd, hkl]
      · rw [if_neg htx, if_neg htx]

/-- What build_inverted_index stores for a term t: exactly the ids of the
documents whose tokenization contains t, in document order (provided the
document ids are distinct, which a Python dict guarantees). -/
theorem dictGet_build (documents : List (Nat × List Char)) (t : Term)
    (hnodup : (documents.map Prod.fst).Nodup) :
    dictGet (build_inverted_index documents) t =
      if docsWith documents t = [] then none else some (docsWith documents t) := by
  have h := dictGet_buildAux documents [] t hnodup (by intro p _ w l hl; cases hl)
  simpa [build_inverted_index, dictGet] using h

/-- Presence of a term in the built index, with no hypotheses: a term has an
entry exactly when it is a fragment of the tokenization of some document. -/
theorem dictGet_buildAux_presence (documents : List (Nat × List Char)) (m : PyIndex)
    (t : Term) :
    (dictGet (documents.foldl addDoc m) t).isSome ↔
      (dictGet m t).isSome ∨ ∃ p ∈ documents, t ∈ splitW p.2 := by
  induction documents generalizing m with
  | nil => simp
  | cons p rest ih =>
      obtain ⟨k, tx⟩ := p
      rw [List.foldl_cons, ih (addDoc m (k, tx))]
      have hstep : (dictGet (addDoc m (k, tx)) t).isSome ↔
          t ∈ splitW tx ∨ (dictGet m t).isSome := by
        rw [dictGet_addDoc]
        by_cases htx : t ∈ splitW tx
        · simp [htx]
        · simp [htx]
      rw [hstep]
      constructor
      · rintro ((h1 | h1) | ⟨q, hq, hq2⟩)
        · exact Or.inr ⟨(k, tx), List.mem_cons_self _ _, h1⟩
        · exact Or.inl h1
        · exact Or.inr ⟨q, List.mem_cons_of_mem _ hq, hq2⟩
      · rintro (h1 | ⟨q, hq, hq2⟩)
        · exact Or.inl (Or.inr h1)
        · rcases List.mem_cons.mp hq with rfl | hq'
          · exact Or.inl (Or.inl hq2)
          · exact Or.inr ⟨q, hq', hq2⟩

/-- C8 counterexample: the claim states the built index contains no
empty-string term, but building from the single document 1 with text "a!"
indexes the empty fragment that re.split(r"\W+") produces at the trailing
separator: the empty-string term is present with posting list [1]. -/
theorem c8_counterexample :
    dictGet (build_inverted_index [(1, ['a', '!'])]) [] = some [1] := by
  decide

/-- C8 amended: the terms of the built index are exactly the fragments of
re.split(r"\W+", text) over the documents — including the empty fragments
produced when a text starts or ends with a non-word character (or is
empty), which are indexed like any other token rather than discarded. -/
theorem c8_index_terms_iff_fragments (documents : List (Nat × List Char)) (t : Term) :
    (dictGet (build_inverted_index documents) t).isSome ↔
      ∃ p ∈ documents, t ∈ splitW p.2 := by
  have h := dictGet_buildAux_presence documents [] t
  simpa [build_inverted_index, dictGet] using h

/-- C9 counterexample: the claim states every posting list is sorted
ascending, but building from documents listed as 25 then 12 (a Python dict
order that load_documents produces whenever the file lists ids out of
order) stores the posting list [25, 12], which is not ascending. -/
theorem c9_counterexample :
    dictGet (build_inverted_index [(25, ['a']), (12, ['a'])]) ['a'] = some [25, 12] ∧
      ¬ List.Sorted (· ≤ ·) ([25, 12] : List Nat) := by
  constructor
  · decide
  · decide

/-- C9 amended: every posting list of the built index is non-empty,
duplicate-free, and a subsequence of the document ids in document-mapping
order — so it is ascending exactly when the documents are supplied in
ascending id order, not in general. -/
theorem c9_posting_list_invariant (documents : List (Nat × List Char)) (t : Term)
    (l : List Nat) (hnodup : (documents.map Prod.fst).Nodup)
    (h : dictGet (build_inverted_index documents) t = some l) :
    l ≠ [] ∧ l.Nodup ∧ l.Sublist (documents.map Prod.fst) := by
  rw [dictGet_build documents t hnodup] at h
  by_cases hd : docsWith documents t = []
  · rw [if_pos hd] at h
    cases h
  · rw [if_neg hd] at h
    have hl : l = docsWith documents t := by
      cases h
      rfl
    subst hl
    have hsub : (docsWith documents t).Sublist (documents.map Prod.fst) :=
      (List.filter_sublist documents).map Prod.fst
    exact ⟨hd, hsub.nodup hnodup, hsub⟩

/-- C9 witness: the amended theorem applied to the index built from the
single document 12 with text "a". -/
theorem c9_posting_list_invariant_witness :
    ([12] : List Nat) ≠ [] ∧ ([12] : List Nat).Nodup ∧
      ([12] : List Nat).Sublist ([(12, (['a'] : List Char))].map Prod.fst) :=
  c9_posting_list_invariant [(12, ['a'])] ['a'] [12] (by decide) (by decide)

/-- The documents used to refute C5: two lowercase matches out of insertion
order plus one uppercase match. -/
def exDocsCase : List (Nat × List Char) :=
  [(25, ['a']), (12, ['a']), (3, ['A'])]

/-- C5 counterexample: the claim states the single-term result is the
ascending-sorted set of documents matching case-insensitively.  On
documents {25: "a", 12: "a", 3: "A"} the code answers query(["a"]) with
[25, 12] — case-sensitive (document 3 is missing) and in document insertion
order (unsorted) — while the spec answer is [3, 12, 25]. -/
theorem c5_counterexample :
    query (build_inverted_index exDocsCase) [['a']] ≠ specSingleQuery exDocsCase ['a'] := by
  decide

/-- C5 amended: the single-term query on a built index returns exactly the
ids of the documents whose tokenization contains the term verbatim
(case-sensitive), in document-mapping insertion order rather than sorted
ascending. -/
theorem c5_single_term_query (documents : List (Nat × List Char)) (t : Term)
    (hnodup : (documents.map Prod.fst).Nodup) :
    query (build_inverted_index documents) [t] = docsWith documents t := by
  have hb := dictGet_build documents t hnodup
  by_cases hd : docsWith documents t = []
  · rw [if_pos hd] at hb
    rw [hd]
    simp [query, queryLoop, hb]
  · rw [if_neg hd] at hb
    simp [query, queryLoop, hb, hd]

/-- C5 witness: the amended theorem applied to the counterexample
documents. -/
theorem c5_single_term_query_witness :
    query (build_inverted_index exDocsCase) [['a']] = docsWith exDocsCase ['a'] :=
  c5_single_term_query exDocsCase ['a'] (by decide)

/-- The probe only ever answers with an empty slot. -/
theorem psFindEmpty_spec (t : List (Option Nat)) (fuel i p j : Nat)
    (h : psFindEmpty t fuel i p = some j) : t.getD j (some 0) = none := by
  induction fuel generalizing i p with
  | zero => cases h
  | succ fuel ih =>
      rw [psFindEmpty] at h
      cases hslot : t.getD (i % t.length) (some 0) with
      | none =>
          rw [hslot] at h
          cases h
          exact hslot
      | some z =>
          rw [hslot] at h
          exact ih _ _ h

theorem getD_none_get? (t : List (Option Nat)) (j : Nat)
    (h : t.getD j (some 0) = none) : t.get? j = some none := by
  rw [List.getD_eq_getElem?_getD] at h
  cases hg : t[j]? with
  | none => rw [hg] at h; cases h
  | some v =>
      rw [hg] at h
      cases v with
      | none => rw [← List.get?_eq_getElem?] at hg; exact hg
      | some z => cases h

/-- Setting an empty slot adds exactly the new element to the filled slots. -/
theorem mem_filterMap_set (t : List (Option Nat)) (j : Nat) (x y : Nat)
    (h : t.get? j = some none) :
    (y ∈ (t.set j (some x)).filterMap id ↔ y = x ∨ y ∈ t.filterMap id) := by
  induction t generalizing j with
  | nil => cases h
  | cons a rest ih =>
      cases j with
      | zero =>
          cases h
          simp [List.set]
      | succ j =>
          rw [List.get?] at h
          have := ih j h
          cases a with
          | none => simpa [List.set] using this
          | some z =>
              simp only [List.set, List.filterMap_cons, id] at this ⊢
              rw [List.mem_cons, List.mem_cons, this]
              tauto

/-- CPython set insertion adds exactly the inserted element. -/
theorem mem_psElems_psInsert (s : PySet) (x y : Nat) :
    y ∈ psElems (psInsert s x) ↔ y = x ∨ y ∈ psElems s := by
  unfold psInsert
  by_cases hx : x ∈ psElems s
  · rw [if_pos hx]
    constructor
    · exact Or.inr
    · rintro (rfl | h)
      · exact hx
      · exact h
  · rw [if_neg hx]
    cases hfind : psFindEmpty s.table (s.table.length + 64) (pyHash x % s.table.length) (pyHash x) with
    | some j =>
        have hempty := getD_none_get? _ _ (psFindEmpty_spec _ _ _ _ _ hfind)
        simp only [psElems, List.mem_append]
        rw [mem_filterMap_set s.table j x y hempty]
        tauto
    | none =>
        simp only [psElems, List.mem_append, List.mem_singleton]
        tauto

/-- Building a set from a list collects exactly the list elements. -/
theorem mem_foldl_psInsert (l : List Nat) (s : PySet) (y : Nat) :
    y ∈ psElems (l.foldl psInsert s) ↔ y ∈ l ∨ y ∈ psElems s := by
  induction l generalizing s with
  | nil => simp
  | cons x rest ih =>
      rw [List.foldl_cons, ih (psInsert s x), mem_psElems_psInsert]
      simp [List.mem_cons]
      tauto

/-- The filtered rebuild of the intersection loop collects exactly the
elements of b that lie in sa. -/
theorem mem_foldl_filterInsert (b : List Nat) (sa e : PySet) (y : Nat) :
    y ∈ psElems (b.foldl (fun acc x => if x ∈ psElems sa then psInsert acc x else acc) e) ↔
      y ∈ psElems e ∨ (y ∈ b ∧ y ∈ psElems sa) := by
  induction b generalizing e with
  | nil => simp
  | cons x rest ih =>
      rw [List.foldl_cons]
      by_cases hx : x ∈ psElems sa
      · rw [if_pos hx, ih (psInsert e x), mem_psElems_psInsert]
        constructor
        · rintro ((rfl | h) | h)
          · exact Or.inr ⟨List.mem_cons_self _ _, hx⟩
          · exact Or.inl h
          · exact Or.inr ⟨List.mem_cons_of_mem _ h.1, h.2⟩
        · rintro (h | ⟨hmem, hsa⟩)
          · exact Or.inl (Or.inr h)
          · rcases List.mem_cons.mp hmem with rfl | h'
            · exact Or.inl (Or.inl rfl)
            · exact Or.inr ⟨h', hsa⟩
      · rw [if_neg hx, ih e]
        constructor
        · rintro (h | h)
          · exact Or.inl h
          · exact Or.inr ⟨List.mem_cons_of_mem _ h.1, h.2⟩
        · rintro (h | ⟨hmem, hsa⟩)
          · exact Or.inl h
          · rcases List.mem_cons.mp hmem with rfl | h'
            · exact absurd hsa hx
            · exact Or.inr ⟨h', hsa⟩

/-- list(set(a).intersection(b)) holds exactly the common elements of a
and b. -/
theorem mem_pyIntersectList (a b : List Nat) (y : Nat) :
    y ∈ pyIntersectList a b ↔ y ∈ a ∧ y ∈ b := by
  unfold pyIntersectList
  rw [mem_foldl_filterInsert, mem_foldl_psInsert]
  have hempty : psElems psEmpty = ([] : List Nat) := rfl
  rw [hempty]
  simp only [List.not_mem_nil, or_false, false_or]
  tauto

/-- The query loop returns [] as soon as it reaches a word with no entry,
whatever the accumulated list is. -/
theorem queryLoop_absent (idx : PyIndex) (ws : List Term) (w : Term)
    (hmem : w ∈ ws) (habs : dictGet idx w = none) :
    ∀ rel, queryLoop idx ws rel = [] := by
  induction ws with
  | nil => cases hmem
  | cons w' ws ih =>
      intro rel
      cases hd : dictGet idx w' with
      | none => simp [queryLoop, hd]
      | some docs =>
          have hw : w ∈ ws := by
            rcases List.mem_cons.mp hmem with rfl | h
            · rw [habs] at hd
              cases hd
            · exact h
          by_cases hdocs : docs = []
          · simp [queryLoop, hd, hdocs]
          · by_cases hrel : rel = []
            · simp [queryLoop, hd, hdocs, hrel, ih hw]
            · simp [queryLoop, hd, hdocs, hrel, ih hw]

/-- C7: if any queried term is absent from the index mapping, the query
returns the empty list, regardless of the other terms. -/
theorem c7_absent_term_empty_result (idx : PyIndex) (ws : List Term) (w : Term)
    (hmem : w ∈ ws) (habs : dictGet idx w = none) :
    query idx ws = [] :=
  queryLoop_absent idx ws w hmem habs []

/-- C7 witness: querying ["topic", "nope"] on the index {"topic": [12, 25]}
returns [] because "nope" has no entry. -/
theorem c7_absent_term_empty_result_witness :
    query exTopicIndex [['t', 'o', 'p', 'i', 'c'], ['n', 'o', 'p', 'e']] = [] :=
  c7_absent_term_empty_result exTopicIndex
    [['t', 'o', 'p', 'i', 'c'], ['n', 'o', 'p', 'e']] ['n', 'o', 'p', 'e']
    (by decide) (by decide)

/-- The index used to refute C6, holding the posting lists the repository
test suite builds for "topic" and "test" from its small dataset. -/
def exQueryIndex : PyIndex :=
  [(['t', 'o', 'p', 'i', 'c'], [12, 25]), (['t', 'e', 's', 't'], [12, 25])]

/-- C6 counterexample: the claim states the two-term result is the
ascending-sorted intersection of the single-term results.  On the index
{"topic": [12, 25], "test": [12, 25]}, both single-term queries answer
[12, 25] and the sorted intersection is [12, 25], but the code answers
[25, 12]: list(set(...)) yields CPython hash-table order (25 sits in slot
1, 12 in slot 4 of the 8-slot table), which is what the repository test
suite itself records as the expected answer. -/
theorem c6_counterexample :
    query exQueryIndex [['t', 'o', 'p', 'i', 'c'], ['t', 'e', 's', 't']] ≠
      sortedIntersect (query exQueryIndex [['t', 'o', 'p', 'i', 'c']])
        (query exQueryIndex [['t', 'e', 's', 't']]) := by
  decide

/-- C6 amended: the two-term result holds exactly the documents common to
the two single-term results — the intersection as a set — but in the
iteration order of the underlying CPython hash set, not sorted ascending. -/
theorem c6_conjunction_membership (idx : PyIndex) (t1 t2 : Term) (d : Nat) :
    d ∈ query idx [t1, t2] ↔ d ∈ query idx [t1] ∧ d ∈ query idx [t2] := by
  unfold query
  cases h1 : dictGet idx t1 with
  | none => simp [queryLoop, h1]
  | some l1 =>
      by_cases hl1 : l1 = []
      · simp [queryLoop, h1, hl1]
      · cases h2 : dictGet idx t2 with
        | none => simp [queryLoop, h1, h2, hl1]
        | some l2 =>
            by_cases hl2 : l2 = []
            · simp [queryLoop, h1, h2, hl1, hl2]
            · simp only [queryLoop, h1, h2, hl1, hl2, if_neg, if_pos]
              simp [hl1, hl2, mem_pyIntersectList]

theorem char_ofNat_toNat (c : Char) : Char.ofNat c.toNat = c := by
  rcases c with ⟨⟨⟨n, hn⟩⟩, valid⟩
  have hv : Nat.isValidChar n := valid
  show Char.ofNat n = _
  unfold Char.ofNat
  rw [dif_pos hv]
  rfl

theorem char_toNat_ofNat (n : Nat) (h : Nat.isValidChar n) : (Char.ofNat n).toNat = n := by
  unfold Char.ofNat
  rw [dif_pos h]
  rfl

theorem char_toNat_valid (c : Char) :
    c.toNat < 55296 ∨ (57343 < c.toNat ∧ c.toNat < 1114112) :=
  c.valid

theorem hexVal_hexDig (m : Nat) (h : m < 16) : hexVal (hexDig m) = some m := by
  interval_cases m <;> decide

theorem hex4Val_hex4 (n : Nat) (h : n < 65536) :
    hex4Val (hexDig (n / 4096 % 16)) (hexDig (n / 256 % 16)) (hexDig (n / 16 % 16))
      (hexDig (n % 16)) = some n := by
  rw [hex4Val, hexVal_hexDig _ (Nat.mod_lt _ (by norm_num)),
    hexVal_hexDig _ (Nat.mod_lt _ (by norm_num)),
    hexVal_hexDig _ (Nat.mod_lt _ (by norm_num)),
    hexVal_hexDig _ (Nat.mod_lt _ (by norm_num))]
  show some _ = some n
  congr 1
  omega

theorem decDigit_isDigit (m : Nat) (h : m < 10) : isDigitCh (decDigit m) = true := by
  interval_cases m <;> decide

theorem decDigit_toNat (m : Nat) (h : m < 10) : (decDigit m).toNat = 48 + m := by
  rw [decDigit, char_toNat_ofNat]
  left
  omega


set_option maxRecDepth 4000 in
/-- Scanning an escaped string body followed by the closing quote recovers
the original string and leaves the remaining input untouched. -/
theorem unescF_escString (s rest : List Char) (fuel : Nat) (h : s.length < fuel) :
    unescF fuel (escString s ++ '"' :: rest) = some (s, rest) := by
  induction s generalizing fuel with
  | nil =>
      cases fuel with
      | zero => omega
      | succ f => rfl
  | cons c s ih =>
      cases fuel with
      | zero => omega
      | succ f =>
          have hf : s.length < f := by
            simp at h
            omega
          rw [escString, List.append_assoc]
          by_cases h1 : c = '"'
          · subst h1
            simp [escChar, unescF, unescChar, ih f hf]
          · by_cases h2 : c = '\\'
            · subst h2
              simp [escChar, unescF, unescChar, ih f hf]
            · by_cases h3 : c = '\n'
              · subst h3
                simp [escChar, unescF, unescChar, ih f hf]
              · by_cases h4 : c = '\r'
                · subst h4
                  simp [escChar, unescF, unescChar, ih f hf]
                · by_cases h5 : c = '\t'
                  · subst h5
                    simp [escChar, unescF, unescChar, ih f hf]
                  · by_cases h6 : c = '\x08'
                    · subst h6
                      simp [escChar, unescF, unescChar, ih f hf]
                    · by_cases h7 : c = '\x0c'
                      · subst h7
                        simp [escChar, unescF, unescChar, ih f hf]
                      · by_cases h8 : (32 ≤ c.toNat && c.toNat ≤ 126) = true
                        · have hp : 32 ≤ c.toNat ∧ c.toNat ≤ 126 := by
                            simpa using h8
                          rw [show escChar c = [c] by
                            simp [escChar, h1, h2, h3, h4, h5, h6, h7, h8]]
                          rw [List.cons_append, List.nil_append]
                          simp [unescF, h1, h2, hp.1, ih f hf]
                        · have hnp : ¬(32 ≤ c.toNat ∧ c.toNat ≤ 126) := by
                            simpa using h8
                          by_cases h9 : c.toNat < 65536
                          · have hesc : escChar c = '\\' :: 'u' :: hex4 c.toNat := by
                              simp [escChar, h1, h2, h3, h4, h5, h6, h7, h8, h9]
                            rw [hesc, hex4]
                            have hhex := hex4Val_hex4 c.toNat h9
                            have hs1 : (55296 ≤ c.toNat && c.toNat ≤ 56319) = false := by
                              rcases char_toNat_valid c with hv | hv
                              · simp
                                omega
                              · simp
                                omega
                            have hs2 : (56320 ≤ c.toNat && c.toNat ≤ 57343) = false := by
                              rcases char_toNat_valid c with hv | hv
                              · simp
                                omega
                              · simp
                                omega
                            simp [unescF, hhex, hs1, hs2, ih f hf, char_ofNat_toNat]
                          · have hv := char_toNat_valid c
                            have hge : 65536 ≤ c.toNat := by omega
                            have hlt : c.toNat < 1114112 := by
                              rcases hv with hv | hv
                              · omega
                              · omega
                            have hesc : escChar c =
                                ('\\' :: 'u' :: hex4 (55296 + (c.toNat - 65536) / 1024)) ++
                                  ('\\' :: 'u' :: hex4 (56320 + (c.toNat - 65536) % 1024)) := by
                              simp [escChar, h1, h2, h3, h4, h5, h6, h7, h8, h9]
                            rw [hesc, hex4, hex4]
                            have hhi : 55296 + (c.toNat - 65536) / 1024 < 65536 := by omega
                            have hmod : (c.toNat - 65536) % 1024 < 1024 :=
                              Nat.mod_lt _ (by norm_num)
                            have hlo : 56320 + (c.toNat - 65536) % 1024 < 65536 := by omega
                            have hhex1 := hex4Val_hex4 _ hhi
                            have hhex2 := hex4Val_hex4 _ hlo
                            have hr1 : (55296 ≤ 55296 + (c.toNat - 65536) / 1024 &&
                                55296 + (c.toNat - 65536) / 1024 ≤ 56319) = true := by
                              simp
                              omega
                            have hr2 : (56320 ≤ 56320 + (c.toNat - 65536) % 1024 &&
                                56320 + (c.toNat - 65536) % 1024 ≤ 57343) = true := by
                              simp
                              omega
                            simp only [List.cons_append, List.append_assoc,
                              List.nil_append]
                            rw [unescF, hhex1]
                            simp only [hr1, hr2, hhex2, ih f hf]
                            rw [if_neg (show ¬('\\' : Char) = '"' by decide)]
                            rw [show 65536 +
                                (55296 + (c.toNat - 65536) / 1024 - 55296) * 1024 +
                                (56320 + (c.toNat - 65536) % 1024 - 56320) =
                                c.toNat by omega]
                            rw [char_ofNat_toNat]
                            simp only [if_true]

theorem natStrAux_digits (fuel n : Nat) (h : n < fuel) :
    ∀ c ∈ natStrAux fuel n, isDigitCh c = true := by
  induction fuel generalizing n with
  | zero => omega
  | succ f ih =>
      rw [natStrAux]
      by_cases h10 : n < 10
      · rw [if_pos h10]
        intro c hc
        rw [List.mem_singleton] at hc
        subst hc
        exact decDigit_isDigit n h10
      · rw [if_neg h10]
        intro c hc
        rcases List.mem_append.mp hc with hc | hc
        · exact ih (n / 10) (by omega) c hc
        · rw [List.mem_singleton] at hc
          subst hc
          exact decDigit_isDigit _ (Nat.mod_lt _ (by norm_num))

theorem natStr_digits (n : Nat) : ∀ c ∈ natStr n, isDigitCh c = true :=
  natStrAux_digits (n + 1) n (Nat.lt_succ_self n)

theorem natStrAux_ne_nil (fuel n : Nat) (h : n < fuel) : natStrAux fuel n ≠ [] := by
  cases fuel with
  | zero => omega
  | succ f =>
      rw [natStrAux]
      by_cases h10 : n < 10
      · simp [h10]
      · simp [h10]

theorem natStr_ne_nil (n : Nat) : natStr n ≠ [] :=
  natStrAux_ne_nil (n + 1) n (Nat.lt_succ_self n)

theorem natStrAux_foldl (fuel : Nat) : ∀ n, n < fuel → ∀ a : Nat,
    (natStrAux fuel n).foldl (fun acc c => acc * 10 + (c.toNat - 48)) a =
      a * 10 ^ (natStrAux fuel n).length + n := by
  induction fuel with
  | zero => omega
  | succ f ih =>
      intro n h a
      rw [natStrAux]
      by_cases h10 : n < 10
      · rw [if_pos h10]
        simp only [List.foldl_cons, List.foldl_nil, List.length_singleton,
          decDigit_toNat n h10, pow_one]
        omega
      · rw [if_neg h10]
        rw [List.foldl_append, List.length_append]
        rw [ih (n / 10) (by omega) a]
        simp [decDigit_toNat (n % 10) (Nat.mod_lt _ (by norm_num))]
        rw [pow_succ]
        have hn : n = 10 * (n / 10) + n % 10 := (Nat.div_add_mod n 10).symm
        ring_nf
        omega

theorem natStr_val (n : Nat) :
    (natStr n).foldl (fun acc c => acc * 10 + (c.toNat - 48)) 0 = n := by
  have := natStrAux_foldl (n + 1) n (Nat.lt_succ_self n) 0
  simpa using this

theorem takeWhile_append_of (p : Char → Bool) (ds rest : List Char)
    (hds : ∀ c ∈ ds, p c = true) (hrest : ∀ c, rest.head? = some c → p c = false) :
    (ds ++ rest).takeWhile p = ds ∧ (ds ++ rest).dropWhile p = rest := by
  induction ds with
  | nil =>
      cases rest with
      | nil => simp
      | cons c r =>
          have := hrest c rfl
          simp [List.takeWhile, List.dropWhile, this]
  | cons d ds ih =>
      have hd : p d = true := hds d (List.mem_cons_self _ _)
      have ih' := ih (fun c hc => hds c (List.mem_cons_of_mem _ hc))
      simp [List.takeWhile, List.dropWhile, hd, ih'.1, ih'.2]

/-- Scanning a printed natural recovers its value when the following input
does not begin with a digit. -/
theorem parseNum_natStr (n : Nat) (rest : List Char)
    (hrest : ∀ c, rest.head? = some c → isDigitCh c = false) :
    parseNum (natStr n ++ rest) = some (n, rest) := by
  obtain ⟨ht, hd⟩ := takeWhile_append_of isDigitCh (natStr n) rest (natStr_digits n) hrest
  rw [parseNum]
  simp only [ht, hd]
  rw [if_neg (natStr_ne_nil n)]
  rw [natStr_val]

theorem encNumsTail_head (ns : List Nat) (rest : List Char) :
    (encNumsTail ns ++ rest).head? = some ']' ∨ (encNumsTail ns ++ rest).head? = some ',' := by
  cases ns with
  | nil => left; rfl
  | cons n ns => right; rfl

theorem encNumsTail_head_nondigit (ns : List Nat) (rest : List Char) :
    ∀ c, (encNumsTail ns ++ rest).head? = some c → isDigitCh c = false := by
  intro c hc
  rcases encNumsTail_head ns rest with h | h <;> rw [h] at hc <;> cases hc <;> decide

theorem length_le_encNumsTail (ns : List Nat) : ns.length ≤ (encNumsTail ns).length := by
  induction ns with
  | nil => simp [encNumsTail]
  | cons n ns ih =>
      simp only [encNumsTail, List.length_cons, List.length_append]
      omega

theorem parseNumsTail_enc (ns : List Nat) (rest : List Char) :
    ∀ fuel, ns.length < fuel →
      parseNumsTail fuel (encNumsTail ns ++ rest) = some (ns, rest) := by
  induction ns with
  | nil =>
      intro fuel h
      cases fuel with
      | zero => omega
      | succ f => rfl
  | cons n ns ih =>
      intro fuel h
      cases fuel with
      | zero => omega
      | succ f =>
          rw [encNumsTail]
          have hpn := parseNum_natStr n (encNumsTail ns ++ rest)
            (encNumsTail_head_nondigit ns rest)
          have hih := ih f (by simp at h; omega)
          simp only [List.cons_append, List.append_assoc]
          rw [parseNumsTail, hpn]
          simp only [hih]

theorem length_le_encNums (ns : List Nat) : ns.length ≤ (encNums ns).length := by
  cases ns with
  | nil => simp [encNums]
  | cons n ns =>
      simp only [encNums, List.length_cons, List.length_append]
      have := length_le_encNumsTail ns
      omega

/-- Parsing a printed array of ints recovers the list and the remaining
input. -/
theorem parseNums_enc (ns : List Nat) (rest : List Char) :
    parseNums (encNums ns ++ rest) = some (ns, rest) := by
  cases ns with
  | nil => rfl
  | cons n ns =>
      rw [encNums]
      obtain ⟨d, ds, hnat⟩ := List.exists_cons_of_ne_nil (natStr_ne_nil n)
      have hd : isDigitCh d = true := by
        apply natStr_digits n
        rw [hnat]
        exact List.mem_cons_self _ _
      simp only [List.cons_append, List.append_assoc]
      have hne : (natStr n ++ (encNumsTail ns ++ rest)).head? ≠ some ']' := by
        rw [hnat]
        simp only [List.cons_append, List.head?_cons]
        intro hcon
        injection hcon with hcon
        subst hcon
        exact absurd hd (by decide)
      have hpn := parseNum_natStr n (encNumsTail ns ++ rest)
        (encNumsTail_head_nondigit ns rest)
      have hbound : ns.length < (encNumsTail ns ++ rest).length + 1 := by
        have := length_le_encNumsTail ns
        rw [List.length_append]
        omega
      simp only [parseNums]
      rw [if_neg hne, hpn]
      simp only [parseNumsTail_enc ns rest _ hbound]

theorem one_le_length_escChar (c : Char) : 1 ≤ (escChar c).length := by
  unfold escChar
  split_ifs <;> simp [hex4]

theorem length_le_escString (s : List Char) : s.length ≤ (escString s).length := by
  induction s with
  | nil => simp [escString]
  | cons c s ih =>
      rw [escString, List.length_append, List.length_cons]
      have := one_le_length_escChar c
      omega

/-- Parsing a printed object entry recovers the key-value pair, for any
value codec that round-trips when followed by a comma or a closing brace. -/
theorem parseEntry_enc {α : Type} (parseVal : List Char → Option (α × List Char))
    (encVal : α → List Char)
    (hval : ∀ (v : α) (r : List Char),
      (r.head? = some ',' ∨ r.head? = some '}') → parseVal (encVal v ++ r) = some (v, r))
    (k : Term) (v : α) (r : List Char)
    (hr : r.head? = some ',' ∨ r.head? = some '}') :
    parseEntry parseVal (encEntry encVal (k, v) ++ r) = some ((k, v), r) := by
  have hshape : encEntry encVal (k, v) ++ r =
      '"' :: (escString k ++ '"' :: (':' :: ' ' :: (encVal v ++ r))) := by
    simp [encEntry, encString]
  rw [hshape]
  have hfuel : k.length < (escString k ++ '"' :: (':' :: ' ' :: (encVal v ++ r))).length + 1 := by
    rw [List.length_append]
    have := length_le_escString k
    omega
  have hun : unesc (escString k ++ '"' :: (':' :: ' ' :: (encVal v ++ r))) =
      some (k, ':' :: ' ' :: (encVal v ++ r)) := by
    rw [unesc]
    exact unescF_escString k _ _ hfuel
  simp only [parseEntry]
  rw [hun]
  simp only [hval v r hr]

theorem encEntriesTail_head {α : Type} (encVal : α → List Char)
    (m : List (Term × α)) (rest : List Char) :
    (encEntriesTail encVal m ++ rest).head? = some '}' ∨
      (encEntriesTail encVal m ++ rest).head? = some ',' := by
  cases m with
  | nil => left; rfl
  | cons p m => right; rfl

theorem length_le_encEntriesTail {α : Type} (encVal : α → List Char)
    (m : List (Term × α)) : m.length ≤ (encEntriesTail encVal m).length := by
  induction m with
  | nil => simp [encEntriesTail]
  | cons p m ih =>
      simp only [encEntriesTail, List.length_cons, List.length_append]
      omega

theorem parseEntriesTail_enc {α : Type} (parseVal : List Char → Option (α × List Char))
    (encVal : α → List Char)
    (hval : ∀ (v : α) (r : List Char),
      (r.head? = some ',' ∨ r.head? = some '}') → parseVal (encVal v ++ r) = some (v, r))
    (m : List (Term × α)) (rest : List Char) :
    ∀ fuel, m.length < fuel →
      parseEntriesTail parseVal fuel (encEntriesTail encVal m ++ rest) = some (m, rest) := by
  induction m with
  | nil =>
      intro fuel h
      cases fuel with
      | zero => omega
      | succ f => rfl
  | cons p m ih =>
      intro fuel h
      cases fuel with
      | zero => omega
      | succ f =>
          obtain ⟨k, v⟩ := p
          rw [encEntriesTail]
          have hpe := parseEntry_enc parseVal encVal hval k v
            (encEntriesTail encVal m ++ rest)
            (by
              rcases encEntriesTail_head encVal m rest with hh | hh
              · right; exact hh
              · left; exact hh)
          have hih := ih f (by simp at h; omega)
          simp only [List.cons_append, List.append_assoc]
          rw [parseEntriesTail]
          rw [show encEntry encVal (k, v) ++ (encEntriesTail encVal m ++ rest) =
            encEntry encVal (k, v) ++ (encEntriesTail encVal m ++ rest) from rfl, hpe]
          simp only [hih]

/-- Parsing a printed object recovers the association list and the
remaining input, for any value codec that round-trips when followed by a
comma or a closing brace. -/
theorem parseObj_enc {α : Type} (parseVal : List Char → Option (α × List Char))
    (encVal : α → List Char)
    (hval : ∀ (v : α) (r : List Char),
      (r.head? = some ',' ∨ r.head? = some '}') → parseVal (encVal v ++ r) = some (v, r))
    (m : List (Term × α)) (rest : List Char) :
    parseObj parseVal (encObj encVal m ++ rest) = some (m, rest) := by
  cases m with
  | nil => rfl
  | cons p m =>
      obtain ⟨k, v⟩ := p
      rw [encObj]
      have hne : (encEntry encVal (k, v) ++ (encEntriesTail encVal m ++ rest)).head? ≠
          some '}' := by
        rw [show encEntry encVal (k, v) ++ (encEntriesTail encVal m ++ rest) =
          '"' :: (escString k ++ '"' :: (':' :: ' ' :: (encVal v ++
            (encEntriesTail encVal m ++ rest)))) by simp [encEntry, encString]]
        simp
      have hpe := parseEntry_enc parseVal encVal hval k v
        (encEntriesTail encVal m ++ rest)
        (by
          rcases encEntriesTail_head encVal m rest with hh | hh
          · right; exact hh
          · left; exact hh)
      have hbound : m.length < (encEntriesTail encVal m ++ rest).length + 1 := by
        have := length_le_encEntriesTail encVal m
        rw [List.length_append]
        omega
      simp only [List.cons_append, List.append_assoc]
      simp only [parseObj]
      rw [if_neg hne, hpe]
      simp only [parseEntriesTail_enc parseVal encVal hval m rest _ hbound]

theorem decodeIndex_encodeIndex (idx : PyIndex) :
    decodeIndex (encodeIndex idx) = some idx := by
  have hval : ∀ (v : List Nat) (r : List Char),
      (r.head? = some ',' ∨ r.head? = some '}') → parseNums (encNums v ++ r) = some (v, r) :=
    fun v r _ => parseNums_enc v r
  have h := parseObj_enc parseNums encNums hval idx []
  rw [List.append_nil] at h
  simp only [decodeIndex, encodeIndex, h]

/-- C2: the text codec round-trips: for every valid Index, json.load of the
json.dump text reconstructs a structurally equal index (the model proves
the stronger entry-by-entry equality of the insertion-ordered association
lists, which implies Python dict equality). -/
theorem c2_text_round_trip (idx : PyIndex) (_hvalid : ValidIndex idx) :
    decodeIndex (encodeIndex idx) = some idx :=
  decodeIndex_encodeIndex idx

/-- C2 witness: the round trip evaluated on the concrete valid index
{"topic": [12, 25]}. -/
theorem c2_text_round_trip_witness :
    ValidIndex exTopicIndex ∧ decodeIndex (encodeIndex exTopicIndex) = some exTopicIndex := by
  have hv : ValidIndex exTopicIndex := by
    constructor
    · simp [exTopicIndex]
    · intro p hp
      simp only [exTopicIndex, List.mem_singleton] at hp
      subst hp
      refine ⟨by simp, ?_, by norm_num⟩
      simp [List.chain'_cons]
  exact ⟨hv, c2_text_round_trip exTopicIndex hv⟩
